import Mathlib

/-!
Verification of the Ojas heart-rate core: a shallow embedding of
`kiss_fft.c` (mixed-radix complex FFT) and `signal_processor.cpp`
(sliding-window spectral peak estimator), with theorems settling the
spec's claims.  Machine floats are modelled as exact reals; complex
samples (`kiss_fft_cpx`) as Mathlib's `ℂ` (a structure of real and
imaginary parts, whose ring operations coincide with the C code's
componentwise formulas).
-/

/-! ## Factorization (`kf_factor` in kiss_fft.c)

The C code searches for the next radix with a `while (n % p)` loop that
advances `p` through 4, 2, 3, 5, 7, ... and jumps to `n` itself once `p`
exceeds `floor(sqrt(original n))`.  We model the loop with fuel; the fuel
amounts chosen are provably enough (`findP_finds`), so the model computes
exactly what the C loop computes. -/

/-- One advance step of the radix search: `4 → 2 → 3 → p+2`, jumping to
`n` itself once past `floor(sqrt n)` (`fs`). -/
def kf_advance (fs n p : ℕ) : ℕ :=
  let q := if p = 4 then 2 else if p = 2 then 3 else p + 2
  if fs < q then n else q

/-- The `while (n % p) { ... }` search for a radix dividing `n`. -/
def findP (fs n : ℕ) : ℕ → ℕ → ℕ
  | 0, p => p
  | fuel + 1, p => if n % p = 0 then p else findP fs n fuel (kf_advance fs n p)

/-- Bound on the steps `findP` needs from start `p` (decreases along
`kf_advance`; zero exactly at a divisor). -/
def findPBound (fs n p : ℕ) : ℕ :=
  if n % p = 0 then 0
  else if p = 4 then fs + 10
  else if p = 2 then fs + 9
  else fs + 8 - min p (fs + 7)

/-- The outer `do { ... } while (n > 1)` loop of `kf_factor`, producing the
ordered list of (radix, remaining-length) pairs. -/
def kf_factor_loop (fs : ℕ) : ℕ → ℕ → ℕ → List (ℕ × ℕ)
  | 0, _, _ => []
  | fuel + 1, n, p =>
      let p' := findP fs n (fs + 12) p
      let n' := n / p'
      (p', n') :: (if 1 < n' then kf_factor_loop fs fuel n' p' else [])

/-- `kf_factor`: greedy factorization of `n`, radix 4 first, then 2, 3 and
odd candidates, with trial division cut off at `floor(sqrt n)` (computed
once, from the original `n`, as in the C code). -/
def kf_factor (n : ℕ) : List (ℕ × ℕ) :=
  kf_factor_loop (Nat.sqrt n) n n 4

/-- Well-formedness of a factor list for transform length `L`: each entry
`(p, m)` satisfies `L = p * m`, the tail factirises `m`, and the list ends
exactly when `m = 1`.  `kf_factor` always produces such a list. -/
def FactorsOk : ℕ → List (ℕ × ℕ) → Prop
  | _, [] => False
  | L, (p, m) :: rest =>
      L = p * m ∧ 0 < p ∧ ((m = 1 ∧ rest = []) ∨ (2 ≤ m ∧ FactorsOk m rest))

noncomputable section

/-! ## Twiddle table and butterflies (kiss_fft.c) -/

/-- Twiddle phase: `-2πi/nfft`, sign-flipped for an inverse plan
(`kiss_fft_alloc`). -/
def kf_phase (nfft : ℕ) (inverse : Bool) (i : ℕ) : ℝ :=
  (if inverse then 1 else -1) * (2 * Real.pi * i / nfft)

/-- The twiddle table entry `st->twiddles[i] = (cos phase, sin phase)`. -/
def twiddle (nfft : ℕ) (inverse : Bool) (i : ℕ) : ℂ :=
  ⟨Real.cos (kf_phase nfft inverse i), Real.sin (kf_phase nfft inverse i)⟩

/-- The primitive root the twiddle table consists of powers of:
`exp(∓2πI/nfft)` (minus for a forward plan). -/
def kf_omega (nfft : ℕ) (inverse : Bool) : ℂ :=
  Complex.exp ((if inverse then 1 else -1) * (2 * Real.pi * Complex.I) / nfft)

/-- Radix-2 butterfly `kf_bfly2`: positions `k < m` get `pre k + tw(k·fstride)·pre (k+m)`,
positions `m ≤ k < 2m` get the difference (the complex product formula in the C
code is exactly `ℂ` multiplication). -/
def kf_bfly2 (tw : ℕ → ℂ) (fstride m : ℕ) (pre : ℕ → ℂ) : ℕ → ℂ := fun k =>
  if k < m then pre k + tw (k * fstride) * pre (k + m)
  else pre (k - m) - tw ((k - m) * fstride) * pre k

/-- Radix-4 butterfly `kf_bfly4`.  The hard-coded combination
`Fout[m] = v1 - I·v3`, `Fout[3m] = v1 + I·v3` encodes the forward sign
convention; this trimmed kiss_fft has no inverse branch here. -/
def kf_bfly4 (tw : ℕ → ℂ) (fstride m : ℕ) (pre : ℕ → ℂ) : ℕ → ℂ := fun k =>
  let j := k % m
  let q := k / m
  let s0 := pre j
  let s1 := tw (j * fstride) * pre (j + m)
  let s2 := tw (j * (fstride * 2)) * pre (j + 2 * m)
  let s3 := tw (j * (fstride * 3)) * pre (j + 3 * m)
  let v0 := s0 + s2
  let v1 := s0 - s2
  let v2 := s1 + s3
  let v3 := s1 - s3
  if q = 0 then v0 + v2
  else if q = 1 then v1 - Complex.I * v3
  else if q = 2 then v0 - v2
  else v1 + Complex.I * v3

/-- Generic butterfly `kf_bfly_generic` for any radix `p`: for output
position `k`, accumulate `scratch[q]·twiddles[twidx]` where `twidx` grows
by `fstride·k` each step and wraps by one subtraction of `Norig` (the C
code's `if (twidx >= Norig) twidx -= Norig`). -/
def kf_bfly_generic (tw : ℕ → ℂ) (Norig fstride p m : ℕ) (pre : ℕ → ℂ) : ℕ → ℂ := fun k =>
  let u := k % m
  ((List.range (p - 1)).foldl
    (fun st q =>
      let twidx0 := st.1 + fstride * k
      let twidx := if Norig ≤ twidx0 then twidx0 - Norig else twidx0
      (twidx, st.2 + tw twidx * pre ((q + 1) * m + u)))
    ((0 : ℕ), pre u)).2

/-- The butterfly dispatch of `kf_work`'s `switch (p)`. -/
def kf_bfly (tw : ℕ → ℂ) (Norig fstride p m : ℕ) (pre : ℕ → ℂ) : ℕ → ℂ :=
  if p = 2 then kf_bfly2 tw fstride m pre
  else if p = 4 then kf_bfly4 tw fstride m pre
  else kf_bfly_generic tw Norig fstride p m pre

/-- The recursive worker `kf_work` (with `in_stride = 1`, as `kiss_fft`
always passes).  At `(p, m)` with stride `fstride`: when `m = 1` the base
case strided-copies the input; otherwise sub-transform `q = k / m` runs on
the input shifted by `q·fstride` with stride `fstride·p`; the butterfly
for `p` then combines. -/
def kf_work (tw : ℕ → ℂ) (Norig : ℕ) : List (ℕ × ℕ) → (ℕ → ℂ) → ℕ → ℕ → ℂ
  | [], f, _ => f
  | (p, m) :: rest, f, fstride =>
      kf_bfly tw Norig fstride p m (fun k =>
        if m = 1 then f (k * fstride)
        else kf_work tw Norig rest
          (fun n => f (k / m * fstride + n)) (fstride * p) (k % m))

/-- `kiss_fft st fin fout`: run `kf_work` over the plan built by
`kiss_fft_alloc nfft inverse` (twiddle table plus `kf_factor nfft`). -/
def kiss_fft (nfft : ℕ) (inverse : Bool) (fin : ℕ → ℂ) : ℕ → ℂ :=
  kf_work (twiddle nfft inverse) nfft (kf_factor nfft) fin 1

/-! ## SignalProcessor (signal_processor.cpp) -/

/-- The persistent state of a `SignalProcessor` instance: constructor
parameters `mBufferSize` and `mSamplingRate`, the sliding buffers, and the
previous-estimate field `mPrevHR` (0 = Unlocked). -/
structure SignalProcessor where
  mBufferSize : ℕ
  mSamplingRate : ℝ
  mRawBuffer : List ℝ
  mTimeBuffer : List ℤ
  mPrevHR : ℝ

/-- The constructor `SignalProcessor(bufferSize, samplingRate)`: empty
buffers, `mPrevHR = 0`. -/
def SignalProcessor.init (bufferSize : ℕ) (samplingRate : ℝ) : SignalProcessor :=
  ⟨bufferSize, samplingRate, [], [], 0⟩

/-- `addSample`: when the buffer is full (`size ≥ mBufferSize`) erase the
oldest element of both buffers, then push back the new pair. -/
def SignalProcessor.addSample (sp : SignalProcessor) (greenValue : ℝ) (timestamp : ℤ) :
    SignalProcessor :=
  let sp' := if sp.mBufferSize ≤ sp.mRawBuffer.length then
      { sp with mRawBuffer := sp.mRawBuffer.tail, mTimeBuffer := sp.mTimeBuffer.tail }
    else sp
  { sp' with mRawBuffer := sp'.mRawBuffer ++ [greenValue],
             mTimeBuffer := sp'.mTimeBuffer ++ [timestamp] }

/-- `reset()`: clear both buffers and the previous estimate. -/
def SignalProcessor.reset (sp : SignalProcessor) : SignalProcessor :=
  { sp with mRawBuffer := [], mTimeBuffer := [], mPrevHR := 0 }

/-- `getBuffer()`. -/
def SignalProcessor.getBuffer (sp : SignalProcessor) : List ℝ := sp.mRawBuffer

/-- `getSampleCount()`. -/
def SignalProcessor.getSampleCount (sp : SignalProcessor) : ℕ := sp.mRawBuffer.length

/-- `normalizeBuffer`: copy the input and subtract its arithmetic mean
(over the current sample count); an empty input is returned unchanged. -/
def normalizeBuffer (input : List ℝ) : List ℝ :=
  if input = [] then input
  else
    let mean := input.sum / input.length
    input.map (fun v => v - mean)

/-- `applyWindow`: multiply element `i` by the Hamming coefficient
`0.54 - 0.46·cos(2πi/(N-1))`, `N` the current length (the `N - 1` is the
C code's `size_t` subtraction, then converted for the division). -/
def applyWindow (data : List ℝ) : List ℝ :=
  data.mapIdx (fun i v =>
    v * (0.54 - 0.46 * Real.cos ((2 * Real.pi * i) / ((data.length - 1 : ℕ) : ℝ))))

/-- Steps 1-2 of `computeHeartRate`: normalize then window the snapshot. -/
def SignalProcessor.processed (sp : SignalProcessor) : List ℝ :=
  applyWindow (normalizeBuffer sp.mRawBuffer)

/-- The FFT input array `mFftIn`: real parts from `processed`, imaginary
parts zero, zero-padded beyond the live count (`List.getD` returns 0 past
the end, matching the explicit padding loop). -/
def SignalProcessor.mFftIn (sp : SignalProcessor) : ℕ → ℂ :=
  fun i => ((sp.processed.getD i 0 : ℝ) : ℂ)

/-- The FFT output array `mFftOut` (forward plan over `mBufferSize`). -/
def SignalProcessor.mFftOut (sp : SignalProcessor) : ℕ → ℂ :=
  kiss_fft sp.mBufferSize false sp.mFftIn

/-- Search band lower edge: default 0.75 Hz, narrowed to
`max 0.75 (prevFreq - 15/60)` when a previous estimate exists. -/
def SignalProcessor.minFreq (sp : SignalProcessor) : ℝ :=
  if 0 < sp.mPrevHR then max 0.75 (sp.mPrevHR / 60 - 15 / 60) else 0.75

/-- Search band upper edge: default 3.33 Hz, narrowed to
`min 3.33 (prevFreq + 15/60)` when a previous estimate exists. -/
def SignalProcessor.maxFreq (sp : SignalProcessor) : ℝ :=
  if 0 < sp.mPrevHR then min 3.33 (sp.mPrevHR / 60 + 15 / 60) else 3.33

/-- The scan loop's accumulator: tracked peak magnitude and index (−1 =
none yet), and the sum/count of magnitudes over the full default band. -/
structure ScanAcc where
  maxMag : ℝ
  peakIndex : ℤ
  sumMag : ℝ
  countMag : ℕ

/-- One iteration of the spectrum scan (loop body for bin `i`): magnitude
is the Euclidean norm of the bin; in-default-band magnitudes accumulate
into the noise-floor sum; a bin inside the (possibly narrowed) search band
that beats the current maximum becomes the peak. -/
def scanStep (cap : ℕ) (rate : ℝ) (spec : ℕ → ℂ) (minF maxF : ℝ)
    (acc : ScanAcc) (i : ℕ) : ScanAcc :=
  let freq := (i : ℝ) * rate / cap
  let magnitude := Real.sqrt ((spec i).re * (spec i).re + (spec i).im * (spec i).im)
  let acc1 := if 0.75 ≤ freq ∧ freq ≤ 3.33 then
      { acc with sumMag := acc.sumMag + magnitude, countMag := acc.countMag + 1 }
    else acc
  if (minF ≤ freq ∧ freq ≤ maxF) ∧ acc1.maxMag < magnitude then
    { acc1 with maxMag := magnitude, peakIndex := (i : ℤ) }
  else acc1

/-- The full spectrum scan: bins `1` to `mBufferSize/2` exclusive. -/
def SignalProcessor.hrScan (sp : SignalProcessor) : ScanAcc :=
  (List.range' 1 (sp.mBufferSize / 2 - 1)).foldl
    (scanStep sp.mBufferSize sp.mSamplingRate sp.mFftOut sp.minFreq sp.maxFreq)
    ⟨0, -1, 0, 0⟩

/-- `computeHeartRate()`: returns the estimate and the updated state.
Mirrors the C control flow: insufficient-data check, scan, validity gate
(`countMagnitude > 0` and peak below twice the average), then conversion
to BPM and the 0.7/0.3 smoothing update of `mPrevHR`. -/
def SignalProcessor.computeHeartRate (sp : SignalProcessor) : ℝ × SignalProcessor :=
  if (sp.mRawBuffer.length : ℝ) < sp.mSamplingRate * 3 then (0, sp)
  else
    let acc := sp.hrScan
    if 0 < acc.countMag ∧ acc.maxMag < acc.sumMag / (acc.countMag : ℝ) * 2 then
      (if 0 < sp.mPrevHR then sp.mPrevHR else 0, sp)
    else if acc.peakIndex ≠ -1 then
      let freq : ℝ := (acc.peakIndex : ℝ) * sp.mSamplingRate / sp.mBufferSize
      let currentBpm := freq * 60
      let newPrev := if 0 < sp.mPrevHR then sp.mPrevHR * 0.7 + currentBpm * 0.3
        else currentBpm
      (newPrev, { sp with mPrevHR := newPrev })
    else (sp.mPrevHR, sp)

/-- External operations on one instance, for stating invariants over
arbitrary call sequences. -/
inductive SPOp where
  | add (greenValue : ℝ) (timestamp : ℤ)
  | compute
  | reset

/-- Run a sequence of external operations. -/
def SignalProcessor.runOps (sp : SignalProcessor) (ops : List SPOp) : SignalProcessor :=
  ops.foldl (fun s op =>
    match op with
    | SPOp.add g t => s.addSample g t
    | SPOp.compute => (s.computeHeartRate).2
    | SPOp.reset => s.reset) sp

/-- Push a list of (intensity, timestamp) pairs in order. -/
def SignalProcessor.pushAll (sp : SignalProcessor) (ps : List (ℝ × ℤ)) : SignalProcessor :=
  ps.foldl (fun s p => s.addSample p.1 p.2) sp

/-- The previous-estimate invariant of C9: `mPrevHR` is 0 (Unlocked) or a
BPM inside the default physiological band `[45, 199.8]`. -/
def PrevOk (sp : SignalProcessor) : Prop :=
  sp.mPrevHR = 0 ∨ (45 ≤ sp.mPrevHR ∧ sp.mPrevHR ≤ 199.8)

/-- Scan-loop invariant: the tracked peak is either still the sentinel −1
or a bin index whose frequency lies inside the search band. -/
def ScanPeakOk (cap : ℕ) (rate minF maxF : ℝ) (acc : ScanAcc) : Prop :=
  acc.peakIndex = -1 ∨
    ∃ i : ℕ, acc.peakIndex = (i : ℤ) ∧
      minF ≤ (i : ℝ) * rate / cap ∧ (i : ℝ) * rate / cap ≤ maxF

/-- Concrete instance for exercising the accepted-estimate path of
`computeHeartRate`: capacity 16, sampling rate 4 Hz, 13 samples whose
windowed spectrum concentrates its in-band energy in bin 6. -/
def spC4 : SignalProcessor :=
  ⟨16, 4, [77, 0, 0, 0, -8, 0, 0, 0, 8, 0, 0, 0, -77], [], 0⟩

/-- Concrete instance for exercising the validity gate of
`computeHeartRate`: capacity 16, sampling rate 4 Hz, 13 samples whose
windowed spectrum spreads equal in-band energy over bins 3, 5 and 7. -/
def spC3 : SignalProcessor :=
  ⟨16, 4, [77, 0, 0, 0, 8, 0, 0, 0, -8, 0, 0, 0, -77], [], 0⟩

/-- The common magnitude of `spC3`'s in-band bins 3, 5 and 7. -/
def magC3 : ℝ := Real.sqrt (308 / 25 * (308 / 25) + 308 / 25 * (308 / 25))

end

/-! ## Helper lemmas: sums, roots of unity, twiddles -/

theorem sum_range_mul_split {M : Type} [AddCommMonoid M] (p m : ℕ) (f : ℕ → M) :
    ∑ i in Finset.range (p * m), f i =
      ∑ q in Finset.range p, ∑ n in Finset.range m, f (q + p * n) := by
  rcases Nat.eq_zero_or_pos p with hp | hp
  · subst hp; simp
  rw [← Finset.sum_product']
  apply Finset.sum_nbij' (fun i => (i % p, i / p)) (fun x => x.1 + p * x.2)
  · intro a ha
    simp only [Finset.mem_range] at ha
    simp only [Finset.mem_product, Finset.mem_range]
    exact ⟨Nat.mod_lt _ hp, Nat.div_lt_of_lt_mul (by omega)⟩
  · intro a ha
    simp only [Finset.mem_product, Finset.mem_range] at ha
    simp only [Finset.mem_range]
    calc a.1 + p * a.2 < p + p * a.2 := by omega
      _ = p * (a.2 + 1) := by ring
      _ ≤ p * m := Nat.mul_le_mul_left p (by omega)
  · intro a _
    exact Nat.mod_add_div a p
  · intro a ha
    simp only [Finset.mem_product, Finset.mem_range] at ha
    have h1 : (a.1 + p * a.2) % p = a.1 := by
      rw [Nat.add_mul_mod_self_left, Nat.mod_eq_of_lt ha.1]
    have h2 : (a.1 + p * a.2) / p = a.2 := by
      rw [Nat.add_mul_div_left _ _ hp, Nat.div_eq_of_lt ha.1, zero_add]
    simp [h1, h2]
  · intro a _
    rw [Nat.mod_add_div a p]

theorem pow_mod_eq_pow {ω : ℂ} {N : ℕ} (hω : ω ^ N = 1) (a : ℕ) :
    ω ^ (a % N) = ω ^ a := by
  conv_rhs => rw [← Nat.mod_add_div a N, pow_add, pow_mul, hω, one_pow, mul_one]

theorem twiddle_eq_pow (nfft : ℕ) (inverse : Bool) (i : ℕ) :
    twiddle nfft inverse i = kf_omega nfft inverse ^ i := by
  have hexp : twiddle nfft inverse i =
      Complex.exp ((kf_phase nfft inverse i : ℝ) * Complex.I) := by
    apply Complex.ext
    · rw [Complex.exp_ofReal_mul_I_re]; rfl
    · rw [Complex.exp_ofReal_mul_I_im]; rfl
  rw [hexp, kf_omega, ← Complex.exp_nat_mul]
  congr 1
  cases inverse <;> simp only [kf_phase] <;> simp <;> try push_cast <;> try ring

theorem kf_omega_false_eq : ∀ nfft : ℕ,
    kf_omega nfft false = Complex.exp (-1 * (2 * Real.pi * Complex.I) / nfft) := by
  intro nfft
  simp [kf_omega]

theorem kf_omega_true_eq : ∀ nfft : ℕ,
    kf_omega nfft true = Complex.exp (1 * (2 * Real.pi * Complex.I) / nfft) := by
  intro nfft
  simp [kf_omega]

theorem kf_omega_pow_self {nfft : ℕ} (hN : 0 < nfft) (inverse : Bool) :
    kf_omega nfft inverse ^ nfft = 1 := by
  have hne : (nfft : ℂ) ≠ 0 := Nat.cast_ne_zero.mpr hN.ne'
  cases inverse
  · rw [kf_omega_false_eq, ← Complex.exp_nat_mul]
    have key : (nfft : ℂ) * (-1 * (2 * Real.pi * Complex.I) / nfft) =
        (-1 : ℤ) * (2 * Real.pi * Complex.I) := by
      field_simp
      try ring
    rw [key, Complex.exp_int_mul_two_pi_mul_I]
  · rw [kf_omega_true_eq, ← Complex.exp_nat_mul]
    have key : (nfft : ℂ) * (1 * (2 * Real.pi * Complex.I) / nfft) =
        (1 : ℤ) * (2 * Real.pi * Complex.I) := by
      field_simp
      try ring
    rw [key, Complex.exp_int_mul_two_pi_mul_I]

theorem kf_omega_pow_half {nfft : ℕ} (h2 : 2 ∣ nfft) (hN : 0 < nfft) (inverse : Bool) :
    kf_omega nfft inverse ^ (nfft / 2) = -1 := by
  obtain ⟨c, rfl⟩ := h2
  have hc : 0 < c := by omega
  have hcne : (c : ℂ) ≠ 0 := Nat.cast_ne_zero.mpr hc.ne'
  rw [Nat.mul_div_cancel_left _ (by norm_num : 0 < 2)]
  cases inverse
  · rw [kf_omega_false_eq, ← Complex.exp_nat_mul]
    have key : (c : ℂ) * (-1 * (2 * Real.pi * Complex.I) / ((2 * c : ℕ) : ℂ)) =
        ((-Real.pi : ℝ) : ℂ) * Complex.I := by
      push_cast
      field_simp
      ring
    rw [key]
    apply Complex.ext
    · rw [Complex.exp_ofReal_mul_I_re]; simp
    · rw [Complex.exp_ofReal_mul_I_im]; simp
  · rw [kf_omega_true_eq, ← Complex.exp_nat_mul]
    have key : (c : ℂ) * (1 * (2 * Real.pi * Complex.I) / ((2 * c : ℕ) : ℂ)) =
        ((Real.pi : ℝ) : ℂ) * Complex.I := by
      push_cast
      field_simp
      ring
    rw [key]
    apply Complex.ext
    · rw [Complex.exp_ofReal_mul_I_re]; simp
    · rw [Complex.exp_ofReal_mul_I_im]; simp

theorem kf_omega_pow_quarter {nfft : ℕ} (h4 : 4 ∣ nfft) (hN : 0 < nfft) :
    kf_omega nfft false ^ (nfft / 4) = -Complex.I := by
  obtain ⟨c, rfl⟩ := h4
  have hc : 0 < c := by omega
  have hcne : (c : ℂ) ≠ 0 := Nat.cast_ne_zero.mpr hc.ne'
  rw [Nat.mul_div_cancel_left _ (by norm_num : 0 < 4)]
  rw [kf_omega_false_eq, ← Complex.exp_nat_mul]
  have key : (c : ℂ) * (-1 * (2 * Real.pi * Complex.I) / ((4 * c : ℕ) : ℂ)) =
      ((-(Real.pi / 2) : ℝ) : ℂ) * Complex.I := by
    push_cast
    field_simp
    ring
  rw [key]
  apply Complex.ext
  · rw [Complex.exp_ofReal_mul_I_re]; simp
  · rw [Complex.exp_ofReal_mul_I_im]; simp

/-! ## Butterfly correctness: each butterfly computes the canonical
Cooley-Tukey combination step over the twiddle root ω -/

theorem kf_bfly2_dft {ω : ℂ} {tw : ℕ → ℂ} (htw : ∀ i, tw i = ω ^ i)
    {s m : ℕ} (hsm : ω ^ (s * m) = -1) (pre : ℕ → ℂ) {k : ℕ} (hk : k < 2 * m) :
    kf_bfly2 tw s m pre k =
      ∑ q in Finset.range 2, ω ^ (s * (q * k)) * pre (q * m + k % m) := by
  have hm : 0 < m := by omega
  rw [Finset.sum_range_succ, Finset.sum_range_one]
  simp only [zero_mul, mul_zero, pow_zero, one_mul, zero_add]
  by_cases hkm : k < m
  · simp only [kf_bfly2, if_pos hkm, htw, Nat.mod_eq_of_lt hkm, mul_comm k s, add_comm k m]
  · have hmod : k % m = k - m := by
      rw [Nat.mod_eq_sub_mod (by omega), Nat.mod_eq_of_lt (by omega)]
    have hk2 : s * k = s * (k - m) + s * m := by
      have h : k = (k - m) + m := by omega
      conv_lhs => rw [h]
      ring
    have hmk : m + (k - m) = k := by omega
    simp only [kf_bfly2, if_neg hkm, htw, hmod, hmk, hk2, pow_add, hsm,
      mul_comm (k - m) s]
    ring

theorem kf_bfly4_dft {ω : ℂ} {tw : ℕ → ℂ} (htw : ∀ i, tw i = ω ^ i)
    {s m : ℕ} (hsm : ω ^ (s * m) = -Complex.I) (pre : ℕ → ℂ) {k : ℕ} (hk : k < 4 * m) :
    kf_bfly4 tw s m pre k =
      ∑ q in Finset.range 4, ω ^ (s * (q * k)) * pre (q * m + k % m) := by
  have hm : 0 < m := by omega
  have ht : k / m < 4 := Nat.div_lt_of_lt_mul (by omega)
  have hkey : k = m * (k / m) + k % m := (Nat.div_add_mod k m).symm
  have hjm : k % m < m := Nat.mod_lt _ hm
  have hcoef : ∀ q : ℕ, ω ^ (s * (q * k)) =
      ω ^ (s * (q * (k % m))) * (-Complex.I) ^ (q * (k / m)) := by
    intro q
    have he : s * (q * k) = s * (q * (k % m)) + s * m * (q * (k / m)) := by
      conv_lhs => rw [hkey]
      ring
    rw [he, pow_add]
    congr 1
    rw [pow_mul, hsm]
  have hI1 : (-Complex.I) ^ 1 = -Complex.I := pow_one _
  have hI2 : (-Complex.I) ^ 2 = -1 := by
    rw [neg_pow, Complex.I_sq]; norm_num
  have hI3 : (-Complex.I) ^ 3 = Complex.I := by
    rw [show (3 : ℕ) = 2 + 1 from rfl, pow_add, hI2, pow_one]; ring
  have hI4 : (-Complex.I) ^ 4 = 1 := by
    rw [show (4 : ℕ) = 2 + 2 from rfl, pow_add, hI2]; ring
  have hI6 : (-Complex.I) ^ 6 = -1 := by
    rw [show (6 : ℕ) = 4 + 2 from rfl, pow_add, hI4, hI2]; ring
  have hI9 : (-Complex.I) ^ 9 = -Complex.I := by
    rw [show (9 : ℕ) = 4 + 4 + 1 from rfl, pow_add, pow_add, hI4, pow_one]; ring
  have hJ2 : Complex.I ^ 2 = -1 := Complex.I_sq
  have hJ3 : Complex.I ^ 3 = -Complex.I := by
    rw [show (3 : ℕ) = 2 + 1 from rfl, pow_add, hJ2, pow_one]; ring
  have hJ4 : Complex.I ^ 4 = 1 := by
    rw [show (4 : ℕ) = 2 + 2 from rfl, pow_add, hJ2]; ring
  have hJ6 : Complex.I ^ 6 = -1 := by
    rw [show (6 : ℕ) = 4 + 2 from rfl, pow_add, hJ4, hJ2]; ring
  have hJ9 : Complex.I ^ 9 = Complex.I := by
    rw [show (9 : ℕ) = 4 + 4 + 1 from rfl, pow_add, pow_add, hJ4, pow_one]; ring
  rw [Finset.sum_range_succ, Finset.sum_range_succ, Finset.sum_range_succ,
    Finset.sum_range_one, hcoef 0, hcoef 1, hcoef 2, hcoef 3]
  simp only [kf_bfly4, htw]
  simp only [zero_mul, mul_zero, pow_zero, one_mul, mul_one, zero_add]
  have e1 : ω ^ (k % m * s) = ω ^ (s * (k % m)) := by
    congr 1; ring
  have e2 : ω ^ (k % m * (s * 2)) = ω ^ (s * (2 * (k % m))) := by
    congr 1; ring
  have e3 : ω ^ (k % m * (s * 3)) = ω ^ (s * (3 * (k % m))) := by
    congr 1; ring
  have a1 : k % m + m = m + k % m := by omega
  have a2 : k % m + 2 * m = 2 * m + k % m := by omega
  have a3 : k % m + 3 * m = 3 * m + k % m := by omega
  simp only [e1, e2, e3, a1, a2, a3]
  clear hcoef hkey
  generalize k / m = t at ht ⊢
  have hcases : t = 0 ∨ t = 1 ∨ t = 2 ∨ t = 3 := by omega
  rcases hcases with h | h | h | h <;> rw [h] <;> norm_num <;>
    (try simp only [hI1, hI2, hI3, hI4, hI6, hI9, hJ2, hJ3, hJ4, hJ6, hJ9]) <;>
    (try ring)

theorem kf_generic_fold {ω : ℂ} {tw : ℕ → ℂ} (htw : ∀ i, tw i = ω ^ i)
    {N : ℕ} (hω : ω ^ N = 1) {s k : ℕ} (hsk : s * k < N) (m u : ℕ) (pre : ℕ → ℂ) :
    ∀ t : ℕ,
      (List.range t).foldl
        (fun st q =>
          (if N ≤ st.1 + s * k then st.1 + s * k - N else st.1 + s * k,
           st.2 + tw (if N ≤ st.1 + s * k then st.1 + s * k - N else st.1 + s * k) *
             pre ((q + 1) * m + u)))
        ((0 : ℕ), pre u) =
      ((s * k * t) % N,
        pre u + ∑ q in Finset.range t, ω ^ (s * ((q + 1) * k)) * pre ((q + 1) * m + u)) := by
  have hN : 0 < N := by omega
  have hstep : ∀ a : ℕ,
      (if N ≤ a % N + s * k then a % N + s * k - N else a % N + s * k) = (a + s * k) % N := by
    intro a
    have hr : a % N < N := Nat.mod_lt _ hN
    have h1 : (a + s * k) % N = (a % N + s * k) % N := by
      conv_lhs => rw [Nat.add_mod, Nat.mod_eq_of_lt hsk]
    by_cases hcase : N ≤ a % N + s * k
    · rw [if_pos hcase, h1, Nat.mod_eq_sub_mod hcase,
        Nat.mod_eq_of_lt (show a % N + s * k - N < N by omega)]
    · rw [if_neg hcase, h1, Nat.mod_eq_of_lt (show a % N + s * k < N by omega)]
  intro t
  induction t with
  | zero => simp
  | succ t ih =>
      rw [List.range_succ, List.foldl_append, ih, List.foldl_cons, List.foldl_nil]
      have hfst : (if N ≤ s * k * t % N + s * k then s * k * t % N + s * k - N
          else s * k * t % N + s * k) = s * k * (t + 1) % N := by
        rw [hstep (s * k * t)]
        congr 1
        try ring
      rw [Finset.sum_range_succ]
      refine Prod.ext hfst ?_
      simp only
      rw [hfst, htw, pow_mod_eq_pow hω]
      have he : s * k * (t + 1) = s * ((t + 1) * k) := by ring
      rw [he]
      ring

theorem kf_bfly_generic_dft {ω : ℂ} {tw : ℕ → ℂ} (htw : ∀ i, tw i = ω ^ i)
    {N : ℕ} (hω : ω ^ N = 1) {s p m : ℕ} (hp : 0 < p) (hpmN : s * (p * m) = N)
    (hN : 0 < N) (pre : ℕ → ℂ) {k : ℕ} (hk : k < p * m) :
    kf_bfly_generic tw N s p m pre k =
      ∑ q in Finset.range p, ω ^ (s * (q * k)) * pre (q * m + k % m) := by
  have hs : 0 < s := by
    rcases Nat.eq_zero_or_pos s with h | h
    · subst h; simp at hpmN; omega
    · exact h
  have hsk : s * k < N := by
    calc s * k < s * (p * m) := (Nat.mul_lt_mul_left hs).mpr hk
      _ = N := hpmN
  simp only [kf_bfly_generic]
  rw [kf_generic_fold htw hω hsk m (k % m) pre (p - 1)]
  conv_rhs => rw [show p = p - 1 + 1 from by omega]
  rw [Finset.sum_range_succ']
  simp only [zero_mul, mul_zero, pow_zero, one_mul, zero_add]
  ring

theorem kf_bfly_dft {ω : ℂ} {tw : ℕ → ℂ} (htw : ∀ i, tw i = ω ^ i)
    {N : ℕ} (hω : ω ^ N = 1)
    (h2 : 2 ∣ N → ω ^ (N / 2) = -1) (h4 : 4 ∣ N → ω ^ (N / 4) = -Complex.I)
    {s p m : ℕ} (hp : 0 < p) (hpmN : s * (p * m) = N) (hN : 0 < N)
    (pre : ℕ → ℂ) {k : ℕ} (hk : k < p * m) :
    kf_bfly tw N s p m pre k =
      ∑ q in Finset.range p, ω ^ (s * (q * k)) * pre (q * m + k % m) := by
  by_cases hp2 : p = 2
  · subst hp2
    have hN2 : N = 2 * (s * m) := by rw [← hpmN]; ring
    have hsm : ω ^ (s * m) = -1 := by
      have hdiv : N / 2 = s * m := by rw [hN2, Nat.mul_div_cancel_left _ (by norm_num : 0 < 2)]
      rw [← hdiv]
      exact h2 ⟨s * m, hN2⟩
    rw [kf_bfly, if_pos rfl]
    exact kf_bfly2_dft htw hsm pre hk
  · by_cases hp4 : p = 4
    · subst hp4
      have hN4 : N = 4 * (s * m) := by rw [← hpmN]; ring
      have hsm : ω ^ (s * m) = -Complex.I := by
        have hdiv : N / 4 = s * m := by rw [hN4, Nat.mul_div_cancel_left _ (by norm_num : 0 < 4)]
        rw [← hdiv]
        exact h4 ⟨s * m, hN4⟩
      rw [kf_bfly, if_neg hp2, if_pos rfl]
      exact kf_bfly4_dft htw hsm pre hk
    · rw [kf_bfly, if_neg hp2, if_neg hp4]
      exact kf_bfly_generic_dft htw hω hp hpmN hN pre hk

theorem kf_work_dft {N : ℕ} (hN : 0 < N) {ω : ℂ} {tw : ℕ → ℂ}
    (htw : ∀ i, tw i = ω ^ i) (hω : ω ^ N = 1)
    (h2 : 2 ∣ N → ω ^ (N / 2) = -1) (h4 : 4 ∣ N → ω ^ (N / 4) = -Complex.I) :
    ∀ (fac : List (ℕ × ℕ)) (L : ℕ), FactorsOk L fac → ∀ (s : ℕ), s * L = N →
      ∀ (f : ℕ → ℂ) (k : ℕ), k < L →
        kf_work tw N fac f s k =
          ∑ n in Finset.range L, ω ^ (s * (n * k)) * f (n * s) := by
  intro fac
  induction fac with
  | nil =>
      intro L hL
      exact absurd hL (by simp [FactorsOk])
  | cons pm rest ih =>
      obtain ⟨p, m⟩ := pm
      intro L hL s hs f k hk
      obtain ⟨hLpm, hp0, hcase⟩ := hL
      subst hLpm
      rw [kf_work, kf_bfly_dft htw hω h2 h4 hp0 hs hN _ hk]
      rcases hcase with ⟨hm1, hrest⟩ | ⟨hm2, hrestOk⟩
      · subst hm1
        simp [Nat.mod_one]
      · have hm0 : 0 < m := by omega
        have hmne : ¬ m = 1 := by omega
        have hkmod : k = m * (k / m) + k % m := (Nat.div_add_mod k m).symm
        have hpre : ∀ q : ℕ,
            (if m = 1 then f ((q * m + k % m) * s)
             else kf_work tw N rest
               (fun n => f ((q * m + k % m) / m * s + n)) (s * p) ((q * m + k % m) % m)) =
            ∑ n in Finset.range m, ω ^ ((s * p) * (n * (k % m))) * f (q * s + n * (s * p)) := by
          intro q
          have hr : k % m < m := Nat.mod_lt _ hm0
          have hdiv : (q * m + k % m) / m = q := by
            rw [add_comm, Nat.add_mul_div_right _ _ hm0, Nat.div_eq_of_lt hr, zero_add]
          have hmod2 : (q * m + k % m) % m = k % m := by
            rw [add_comm, Nat.add_mul_mod_self_right, Nat.mod_eq_of_lt hr]
          rw [if_neg hmne, hdiv, hmod2]
          exact ih m hrestOk (s * p) (show s * p * m = N by rw [← hs]; ring)
            (fun n => f (q * s + n)) (k % m) hr
        have hexp : ∀ q n : ℕ, ω ^ (s * ((q + p * n) * k)) =
            ω ^ (s * (q * k)) * ω ^ ((s * p) * (n * (k % m))) := by
          intro q n
          have h1 : s * ((q + p * n) * k) =
              s * (q * k) + ((s * p) * (n * (k % m)) + (s * (p * m)) * (n * (k / m))) := by
            have ha : s * ((q + p * n) * k) = s * (q * k) + s * p * n * k := by ring
            have hb : s * p * n * k =
                s * p * (n * (k % m)) + s * (p * m) * (n * (k / m)) := by
              conv_lhs => rw [hkmod]
              ring
            rw [ha, hb]
            try ring
          rw [h1, pow_add, pow_add, hs,
            show ω ^ (N * (n * (k / m))) = (ω ^ N) ^ (n * (k / m)) from pow_mul ω N _,
            hω, one_pow, mul_one]
        calc ∑ q in Finset.range p, ω ^ (s * (q * k)) *
              (if m = 1 then f ((q * m + k % m) * s)
               else kf_work tw N rest
                 (fun n => f ((q * m + k % m) / m * s + n)) (s * p)
                 ((q * m + k % m) % m)) =
            ∑ q in Finset.range p, ∑ n in Finset.range m,
              ω ^ (s * (q * k)) * (ω ^ ((s * p) * (n * (k % m))) * f (q * s + n * (s * p))) := by
              refine Finset.sum_congr rfl fun q _ => ?_
              rw [hpre q, Finset.mul_sum]
          _ = ∑ n in Finset.range (p * m), ω ^ (s * (n * k)) * f (n * s) := by
              rw [sum_range_mul_split p m (fun n => ω ^ (s * (n * k)) * f (n * s))]
              refine Finset.sum_congr rfl fun q _ => Finset.sum_congr rfl fun n _ => ?_
              rw [hexp q n]
              have harg : (q + p * n) * s = q * s + n * (s * p) := by ring
              rw [harg]
              ring

/-! ## kf_factor produces a well-formed factor list -/

theorem findPBound_le (fs n p : ℕ) : findPBound fs n p ≤ fs + 10 := by
  unfold findPBound
  split_ifs <;> omega

theorem findPBound_pos {fs n p : ℕ} (h : ¬ n % p = 0) : 0 < findPBound fs n p := by
  unfold findPBound
  rw [if_neg h]
  split_ifs <;> omega

theorem findPBound_self (fs n : ℕ) (hn : 0 < n) : findPBound fs n n = 0 := by
  unfold findPBound
  rw [if_pos (Nat.mod_self n)]

theorem findP_finds (fs n : ℕ) (hn : 0 < n) :
    ∀ fuel p, 0 < p → findPBound fs n p ≤ fuel →
      n % findP fs n fuel p = 0 ∧ 0 < findP fs n fuel p ∧
        (2 ≤ n → 2 ≤ p → 2 ≤ findP fs n fuel p) := by
  intro fuel
  induction fuel with
  | zero =>
      intro p hp hb
      have hdvd : n % p = 0 := by
        by_contra hnd
        have := @findPBound_pos fs n p hnd
        omega
      rw [findP]
      exact ⟨hdvd, hp, fun _ h => h⟩
  | succ fuel ih =>
      intro p hp hb
      rw [findP]
      by_cases hdvd : n % p = 0
      · rw [if_pos hdvd]
        exact ⟨hdvd, hp, fun _ h => h⟩
      · rw [if_neg hdvd]
        have hp1 : p ≠ 1 := by
          intro h
          subst h
          simp [Nat.mod_one] at hdvd
        have hadv_pos : 0 < kf_advance fs n p := by
          simp only [kf_advance]
          split_ifs <;> omega
        have hadv2 : 2 ≤ kf_advance fs n p ∨ kf_advance fs n p = n := by
          simp only [kf_advance]
          split_ifs <;> omega
        have hbp : findPBound fs n p ≤ fuel + 1 := hb
        have hbadv : findPBound fs n (kf_advance fs n p) ≤ fuel := by
          have hbndp : findPBound fs n p =
              (if p = 4 then fs + 10 else if p = 2 then fs + 9
               else fs + 8 - min p (fs + 7)) := by
            unfold findPBound
            rw [if_neg hdvd]
          by_cases hp4 : p = 4
          · subst hp4
            norm_num [kf_advance]
            by_cases hfs : fs < 2
            · rw [if_pos hfs, findPBound_self fs n hn]
              omega
            · rw [if_neg hfs]
              have : findPBound fs n 2 ≤ fs + 9 := by
                unfold findPBound
                split_ifs <;> omega
              rw [hbndp] at hbp
              norm_num at hbp
              omega
          · by_cases hp2 : p = 2
            · subst hp2
              norm_num [kf_advance]
              by_cases hfs : fs < 3
              · rw [if_pos hfs, findPBound_self fs n hn]
                omega
              · rw [if_neg hfs]
                have : findPBound fs n 3 ≤ fs + 5 := by
                  unfold findPBound
                  split_ifs <;> omega
                rw [hbndp] at hbp
                norm_num at hbp
                omega
            · simp only [kf_advance]
              rw [if_neg hp4, if_neg hp2]
              rw [hbndp, if_neg hp4, if_neg hp2] at hbp
              by_cases hfs : fs < p + 2
              · rw [if_pos hfs, findPBound_self fs n hn]
                omega
              · rw [if_neg hfs]
                have hne4 : p + 2 ≠ 4 := by omega
                have hne2 : p + 2 ≠ 2 := by omega
                have : findPBound fs n (p + 2) ≤ fs + 8 - min (p + 2) (fs + 7) := by
                  unfold findPBound
                  rw [if_neg hne4, if_neg hne2]
                  split_ifs <;> omega
                have hminp : min p (fs + 7) = p := by omega
                have hminp2 : min (p + 2) (fs + 7) = p + 2 := by omega
                rw [hminp] at hbp
                rw [hminp2] at this
                omega
        obtain ⟨h1, h2, h3⟩ := ih (kf_advance fs n p) hadv_pos hbadv
        refine ⟨h1, h2, fun h2n _ => h3 h2n ?_⟩
        rcases hadv2 with h | h
        · exact h
        · omega

theorem kf_factor_loop_ok :
    ∀ fuel n p fs, 0 < n → n ≤ fuel → 0 < p → (2 ≤ n → 2 ≤ p) →
      FactorsOk n (kf_factor_loop fs fuel n p) := by
  intro fuel
  induction fuel with
  | zero =>
      intro n p fs hn hfuel
      omega
  | succ fuel ih =>
      intro n p fs hn hfuel hp h2p
      simp only [kf_factor_loop]
      obtain ⟨hdvd, hppos, h2⟩ :=
        findP_finds fs n hn (fs + 12) p hp (le_trans (findPBound_le fs n p) (by omega))
      have hdvd' : findP fs n (fs + 12) p ∣ n := Nat.dvd_of_mod_eq_zero hdvd
      by_cases hn1 : n = 1
      · subst hn1
        have hp'1 : findP fs 1 (fs + 12) p = 1 := Nat.dvd_one.mp hdvd'
        rw [hp'1]
        norm_num
        simp [FactorsOk]
      · have hn2 : 2 ≤ n := by omega
        have hp2' : 2 ≤ findP fs n (fs + 12) p := h2 hn2 (h2p hn2)
        have hple : findP fs n (fs + 12) p ≤ n := Nat.le_of_dvd hn hdvd'
        have hq : n = findP fs n (fs + 12) p * (n / findP fs n (fs + 12) p) :=
          (Nat.mul_div_cancel' hdvd').symm
        have hn'pos : 0 < n / findP fs n (fs + 12) p := Nat.div_pos hple hppos
        have hn'lt : n / findP fs n (fs + 12) p < n :=
          Nat.div_lt_self hn (by omega)
        by_cases h1n' : 1 < n / findP fs n (fs + 12) p
        · rw [if_pos h1n']
          exact ⟨hq, hppos,
            Or.inr ⟨h1n', ih _ _ fs (by omega) (by omega) (by omega) (fun _ => hp2')⟩⟩
        · rw [if_neg h1n']
          have hn'1 : n / findP fs n (fs + 12) p = 1 := by omega
          exact ⟨hq, hppos, Or.inl ⟨hn'1, rfl⟩⟩

theorem kf_factor_ok {n : ℕ} (hn : 0 < n) : FactorsOk n (kf_factor n) := by
  unfold kf_factor
  exact kf_factor_loop_ok n n 4 (Nat.sqrt n) hn le_rfl (by norm_num)
    (fun _ => by norm_num)

/-! ## The executed transform is the DFT over the plan's twiddle root -/

theorem kiss_fft_forward_dft {N : ℕ} (hN : 0 < N) (f : ℕ → ℂ) {k : ℕ} (hk : k < N) :
    kiss_fft N false f k =
      ∑ n in Finset.range N, kf_omega N false ^ (n * k) * f n := by
  unfold kiss_fft
  have h := kf_work_dft hN (twiddle_eq_pow N false) (kf_omega_pow_self hN false)
    (fun h2 => kf_omega_pow_half h2 hN false)
    (fun h4 => kf_omega_pow_quarter h4 hN)
    (kf_factor N) N (kf_factor_ok hN) 1 (one_mul N) f k hk
  rw [h]
  refine Finset.sum_congr rfl fun n _ => ?_
  rw [one_mul, mul_one]

theorem kiss_fft_inverse_dft {N : ℕ} (hN : 0 < N) (hN4 : ¬ 4 ∣ N) (f : ℕ → ℂ)
    {k : ℕ} (hk : k < N) :
    kiss_fft N true f k =
      ∑ n in Finset.range N, kf_omega N true ^ (n * k) * f n := by
  unfold kiss_fft
  have h := kf_work_dft hN (twiddle_eq_pow N true) (kf_omega_pow_self hN true)
    (fun h2 => kf_omega_pow_half h2 hN true)
    (fun h4 => absurd h4 hN4)
    (kf_factor N) N (kf_factor_ok hN) 1 (one_mul N) f k hk
  rw [h]
  refine Finset.sum_congr rfl fun n _ => ?_
  rw [one_mul, mul_one]

/-! ## Root-of-unity orthogonality, for the forward/inverse round trip -/

theorem kf_omega_mul_pow {N : ℕ} (hN : 0 < N) (n j : ℕ) :
    kf_omega N false ^ n * kf_omega N true ^ j =
      Complex.exp (2 * Real.pi * Complex.I / N) ^ ((j : ℤ) - n) := by
  have hne : Complex.exp (2 * Real.pi * Complex.I / N) ≠ 0 := Complex.exp_ne_zero _
  rw [kf_omega_false_eq, kf_omega_true_eq]
  have h1 : Complex.exp (-1 * (2 * Real.pi * Complex.I) / N) =
      (Complex.exp (2 * Real.pi * Complex.I / N))⁻¹ := by
    rw [← Complex.exp_neg]
    congr 1
    ring
  have h2 : Complex.exp (1 * (2 * Real.pi * Complex.I) / N) =
      Complex.exp (2 * Real.pi * Complex.I / N) := by
    congr 1
    ring
  rw [h1, h2, inv_pow, ← zpow_natCast (Complex.exp (2 * Real.pi * Complex.I / N)) n,
    ← zpow_natCast (Complex.exp (2 * Real.pi * Complex.I / N)) j, ← zpow_neg,
    ← zpow_add₀ hne]
  congr 1
  ring

theorem kf_omega_orthogonal {N : ℕ} (hN : 0 < N) {n j : ℕ} (hn : n < N) (hj : j < N) :
    ∑ k in Finset.range N, kf_omega N false ^ (n * k) * kf_omega N true ^ (k * j) =
      if n = j then (N : ℂ) else 0 := by
  have hξ := Complex.isPrimitiveRoot_exp N hN.ne'
  have hterm : ∀ k : ℕ, kf_omega N false ^ (n * k) * kf_omega N true ^ (k * j) =
      (kf_omega N false ^ n * kf_omega N true ^ j) ^ k := by
    intro k
    rw [mul_pow, ← pow_mul, ← pow_mul]
    congr 2
    ring
  simp only [hterm, kf_omega_mul_pow hN n j]
  by_cases heq : n = j
  · subst heq
    simp
  · have hzne : Complex.exp (2 * Real.pi * Complex.I / N) ^ ((j : ℤ) - n) ≠ 1 := by
      intro hcon
      rw [hξ.zpow_eq_one_iff_dvd] at hcon
      have hz : ((j : ℤ) - n) = 0 := Int.eq_zero_of_abs_lt_dvd hcon (by rw [abs_lt]; omega)
      omega
    rw [geom_sum_eq hzne]
    have hpow : (Complex.exp (2 * Real.pi * Complex.I / N) ^ ((j : ℤ) - n)) ^ N = 1 := by
      calc (Complex.exp (2 * Real.pi * Complex.I / N) ^ ((j : ℤ) - n)) ^ N
          = Complex.exp (2 * Real.pi * Complex.I / N) ^ (((j : ℤ) - n) * N) := by
            rw [← zpow_natCast (Complex.exp (2 * Real.pi * Complex.I / N) ^ ((j : ℤ) - n)) N,
              ← zpow_mul]
        _ = (Complex.exp (2 * Real.pi * Complex.I / N) ^ (N : ℤ)) ^ ((j : ℤ) - n) := by
            rw [← zpow_mul]
            congr 1
            ring
        _ = 1 := by
            rw [zpow_natCast, hξ.pow_eq_one, one_zpow]
    rw [hpow]
    simp [heq]

/-! ## Claims C1 and C2 -/

/-- C1: for every transform length N ≥ 1, executing the transform built for
that N on the input that is zero everywhere except a unit real value at
index 0 yields an output whose N bins all have the same magnitude, for
every factorization the plan builder (`kf_factor`) produces for N. -/
theorem C1_impulse_flat_spectrum (N : ℕ) (hN : 1 ≤ N) {j k : ℕ} (hj : j < N) (hk : k < N) :
    Complex.abs (kiss_fft N false (fun n => if n = 0 then 1 else 0) j) =
      Complex.abs (kiss_fft N false (fun n => if n = 0 then 1 else 0) k) := by
  have hbin : ∀ i : ℕ, i < N →
      kiss_fft N false (fun n => if n = 0 then (1 : ℂ) else 0) i = 1 := by
    intro i hi
    rw [kiss_fft_forward_dft hN _ hi]
    rw [Finset.sum_eq_single_of_mem 0 (Finset.mem_range.mpr (by omega))]
    · simp
    · intro b _ hb
      simp [hb]
  rw [hbin j hj, hbin k hk]

/-- Witness for C1 at N = 6 (factors 2·3, radix-2 and generic butterflies). -/
theorem C1_impulse_flat_spectrum_witness :
    (1 ≤ 6 ∧ 2 < 6 ∧ 5 < 6) ∧
      Complex.abs (kiss_fft 6 false (fun n => if n = 0 then 1 else 0) 2) =
        Complex.abs (kiss_fft 6 false (fun n => if n = 0 then 1 else 0) 5) :=
  ⟨⟨by norm_num, by norm_num, by norm_num⟩,
    C1_impulse_flat_spectrum 6 (by norm_num) (by norm_num) (by norm_num)⟩

/-- C2 (amended): for every N ≥ 1 whose factorization contains no radix-4
stage (equivalently 4 ∤ N) and every input x, executing the forward plan and
then the inverse plan (which only negates the twiddle phase) yields N times
x; no 1/N scaling is applied.  (For 4 ∣ N the round trip fails: the radix-4
butterfly hard-codes the forward sign convention, see the counterexample.) -/
theorem C2_roundtrip_scaled (N : ℕ) (hN : 1 ≤ N) (hN4 : ¬ 4 ∣ N) (x : ℕ → ℂ)
    {j : ℕ} (hj : j < N) :
    kiss_fft N true (kiss_fft N false x) j = (N : ℂ) * x j := by
  have hN0 : 0 < N := hN
  rw [kiss_fft_inverse_dft hN0 hN4 _ hj]
  have hstep : ∀ n ∈ Finset.range N,
      kf_omega N true ^ (n * j) * kiss_fft N false x n =
        ∑ m in Finset.range N,
          x m * (kf_omega N false ^ (m * n) * kf_omega N true ^ (n * j)) := by
    intro n hn
    rw [kiss_fft_forward_dft hN0 x (Finset.mem_range.mp hn), Finset.mul_sum]
    refine Finset.sum_congr rfl fun m _ => ?_
    ring
  rw [Finset.sum_congr rfl hstep, Finset.sum_comm]
  have hortho : ∀ m ∈ Finset.range N,
      ∑ n in Finset.range N,
          x m * (kf_omega N false ^ (m * n) * kf_omega N true ^ (n * j)) =
        x m * (if m = j then (N : ℂ) else 0) := by
    intro m hm
    rw [← Finset.mul_sum, kf_omega_orthogonal hN0 (Finset.mem_range.mp hm) hj]
  rw [Finset.sum_congr rfl hortho,
    Finset.sum_eq_single_of_mem j (Finset.mem_range.mpr hj)]
  · rw [if_pos rfl]
    ring
  · intro b _ hb
    simp [hb]

/-- Witness for the amended C2 at N = 6, x n = n, j = 3. -/
theorem C2_roundtrip_scaled_witness :
    (1 ≤ 6 ∧ ¬ 4 ∣ 6 ∧ 3 < 6) ∧
      kiss_fft 6 true (kiss_fft 6 false (fun n => (n : ℂ))) 3 =
        (6 : ℂ) * (fun n => (n : ℂ)) 3 :=
  ⟨⟨by norm_num, by decide, by norm_num⟩,
    C2_roundtrip_scaled 6 (by norm_num) (by decide) _ (by norm_num)⟩

theorem twiddle_zero (N : ℕ) (inv : Bool) : twiddle N inv 0 = 1 := by
  unfold twiddle kf_phase
  cases inv <;> simp [Complex.ext_iff]

theorem kiss_fft_four_eval (inv : Bool) (f : ℕ → ℂ) (k : ℕ) :
    kiss_fft 4 inv f k = kf_bfly4 (twiddle 4 inv) 1 1 f k := by
  have hfac : kf_factor 4 = [(4, 1)] := by decide
  rw [kiss_fft, hfac, kf_work, kf_bfly, if_neg (by norm_num), if_pos rfl]
  congr 1
  funext t
  simp

/-- C2 counterexample: at N = 4 (plan factorization [(4,1)], a radix-4
stage) the inverse-after-forward round trip does not return 4·x: for the
unit impulse at index 1, bin 1 of the round trip is 0, not 4. -/
theorem C2_roundtrip_counterexample :
    kiss_fft 4 true (kiss_fft 4 false (fun n => if n = 1 then 1 else 0)) 1 ≠
      (4 : ℂ) * (fun n => if n = 1 then (1 : ℂ) else 0) 1 := by
  have hF0 : kiss_fft 4 false (fun n => if n = 1 then (1 : ℂ) else 0) 0 = 1 := by
    rw [kiss_fft_four_eval]
    simp [kf_bfly4, twiddle_zero]
  have hF1 : kiss_fft 4 false (fun n => if n = 1 then (1 : ℂ) else 0) 1 = -Complex.I := by
    rw [kiss_fft_four_eval]
    simp [kf_bfly4, twiddle_zero]
  have hF2 : kiss_fft 4 false (fun n => if n = 1 then (1 : ℂ) else 0) 2 = -1 := by
    rw [kiss_fft_four_eval]
    simp [kf_bfly4, twiddle_zero]
  have hF3 : kiss_fft 4 false (fun n => if n = 1 then (1 : ℂ) else 0) 3 = Complex.I := by
    rw [kiss_fft_four_eval]
    simp [kf_bfly4, twiddle_zero]
  have hG : kiss_fft 4 true (kiss_fft 4 false (fun n => if n = 1 then (1 : ℂ) else 0)) 1 = 0 := by
    rw [kiss_fft_four_eval]
    simp only [kf_bfly4, twiddle_zero]
    norm_num [hF0, hF1, hF2, hF3, twiddle_zero]
    try ring_nf
    try simp [Complex.I_sq]
  rw [hG]
  norm_num

/-! ## Claims C5, C6, C7, C10 -/

/-- C5: with fewer than samplingRate·3 live samples, computeHeartRate
returns the sentinel 0 and changes no state: buffer, count and
previous-estimate state are unchanged. -/
theorem C5_insufficient_data (sp : SignalProcessor)
    (h : (sp.mRawBuffer.length : ℝ) < sp.mSamplingRate * 3) :
    sp.computeHeartRate = (0, sp) ∧
      sp.computeHeartRate.2.mRawBuffer = sp.mRawBuffer ∧
      sp.computeHeartRate.2.getSampleCount = sp.getSampleCount ∧
      sp.computeHeartRate.2.mPrevHR = sp.mPrevHR := by
  have h1 : sp.computeHeartRate = (0, sp) := by
    unfold SignalProcessor.computeHeartRate
    rw [if_pos h]
  exact ⟨h1, by rw [h1], by rw [h1], by rw [h1]⟩

/-- Witness for C5: 3 samples at 30 Hz, a Locked state. -/
theorem C5_insufficient_data_witness :
    (((SignalProcessor.mk 256 30 [1, 2, 3] [10, 20, 30] 80).mRawBuffer.length : ℝ) <
        (SignalProcessor.mk 256 30 [1, 2, 3] [10, 20, 30] 80).mSamplingRate * 3) ∧
      (SignalProcessor.mk 256 30 [1, 2, 3] [10, 20, 30] 80).computeHeartRate =
        (0, SignalProcessor.mk 256 30 [1, 2, 3] [10, 20, 30] 80) :=
  ⟨by norm_num, (C5_insufficient_data _ (by norm_num)).1⟩

theorem addSample_fields (sp : SignalProcessor) (g : ℝ) (t : ℤ) :
    (sp.addSample g t).mBufferSize = sp.mBufferSize ∧
      (sp.addSample g t).mSamplingRate = sp.mSamplingRate ∧
      (sp.addSample g t).mRawBuffer =
        (if sp.mBufferSize ≤ sp.mRawBuffer.length then sp.mRawBuffer.tail
         else sp.mRawBuffer) ++ [g] ∧
      (sp.addSample g t).mTimeBuffer =
        (if sp.mBufferSize ≤ sp.mRawBuffer.length then sp.mTimeBuffer.tail
         else sp.mTimeBuffer) ++ [t] ∧
      (sp.addSample g t).mPrevHR = sp.mPrevHR := by
  unfold SignalProcessor.addSample
  by_cases h : sp.mBufferSize ≤ sp.mRawBuffer.length <;> simp [h]

theorem pushAll_spec (c : ℕ) (hc : 1 ≤ c) (rate : ℝ) (ps : List (ℝ × ℤ)) :
    (SignalProcessor.pushAll (SignalProcessor.init c rate) ps).mBufferSize = c ∧
      (SignalProcessor.pushAll (SignalProcessor.init c rate) ps).mSamplingRate = rate ∧
      (SignalProcessor.pushAll (SignalProcessor.init c rate) ps).mRawBuffer =
        (ps.map Prod.fst).drop (ps.length - c) ∧
      (SignalProcessor.pushAll (SignalProcessor.init c rate) ps).mTimeBuffer =
        (ps.map Prod.snd).drop (ps.length - c) := by
  induction ps using List.reverseRecOn with
  | nil =>
      simp [SignalProcessor.pushAll, SignalProcessor.init]
  | append_singleton l a ih =>
      obtain ⟨hsz, hrt, hraw, htime⟩ := ih
      have hlraw : (SignalProcessor.pushAll (SignalProcessor.init c rate) l).mRawBuffer.length =
          min l.length c := by
        rw [hraw, List.length_drop, List.length_map]
        omega
      have hstep : SignalProcessor.pushAll (SignalProcessor.init c rate) (l ++ [a]) =
          (SignalProcessor.pushAll (SignalProcessor.init c rate) l).addSample a.1 a.2 := by
        simp [SignalProcessor.pushAll, List.foldl_append]
      obtain ⟨f1, f2, f3, f4, _⟩ :=
        addSample_fields (SignalProcessor.pushAll (SignalProcessor.init c rate) l) a.1 a.2
      rw [hsz, hlraw] at f3 f4
      rw [hraw] at f3
      rw [htime] at f4
      have h3 : (SignalProcessor.pushAll (SignalProcessor.init c rate) (l ++ [a])).mRawBuffer =
          ((l ++ [a]).map Prod.fst).drop ((l ++ [a]).length - c) := by
        rw [hstep, f3]
        by_cases hcl : c ≤ l.length
        · rw [if_pos (by omega), List.tail_drop, List.map_append, List.length_append]
          rw [List.drop_append_of_le_length (by rw [List.length_map]; simp; omega)]
          congr 2
          simp
          omega
        · rw [if_neg (by omega), List.map_append, List.length_append]
          have hz1 : l.length - c = 0 := by omega
          have hz2 : (l.length + [a].length) - c = 0 := by simp; omega
          rw [hz1, hz2, List.drop_zero, List.drop_zero]
          simp
      have h4 : (SignalProcessor.pushAll (SignalProcessor.init c rate) (l ++ [a])).mTimeBuffer =
          ((l ++ [a]).map Prod.snd).drop ((l ++ [a]).length - c) := by
        rw [hstep, f4]
        by_cases hcl : c ≤ l.length
        · rw [if_pos (by omega), List.tail_drop, List.map_append, List.length_append]
          rw [List.drop_append_of_le_length (by rw [List.length_map]; simp; omega)]
          congr 2
          simp
          omega
        · rw [if_neg (by omega), List.map_append, List.length_append]
          have hz1 : l.length - c = 0 := by omega
          have hz2 : (l.length + [a].length) - c = 0 := by simp; omega
          rw [hz1, hz2, List.drop_zero, List.drop_zero]
          simp
      exact ⟨by rw [hstep, f1, hsz], by rw [hstep, f2, hrt], h3, h4⟩

theorem pushAll_length (c : ℕ) (hc : 1 ≤ c) (rate : ℝ) (ps : List (ℝ × ℤ)) :
    (SignalProcessor.pushAll (SignalProcessor.init c rate) ps).mRawBuffer.length =
      min ps.length c := by
  obtain ⟨_, _, hraw, _⟩ := pushAll_spec c hc rate ps
  rw [hraw, List.length_drop, List.length_map]
  omega

/-- C6: after capacity + k pushes the buffer holds exactly the last
capacity (intensity, timestamp) pairs in insertion order; the length never
exceeds the capacity. -/
theorem C6_fifo_window (c : ℕ) (hc : 1 ≤ c) (rate : ℝ) (k : ℕ) (ps : List (ℝ × ℤ))
    (hlen : ps.length = c + k) :
    (SignalProcessor.pushAll (SignalProcessor.init c rate) ps).mRawBuffer =
        (ps.map Prod.fst).drop k ∧
      (SignalProcessor.pushAll (SignalProcessor.init c rate) ps).mTimeBuffer =
        (ps.map Prod.snd).drop k ∧
      (SignalProcessor.pushAll (SignalProcessor.init c rate) ps).mRawBuffer.length = c ∧
      ∀ qs : List (ℝ × ℤ),
        (SignalProcessor.pushAll (SignalProcessor.init c rate) qs).mRawBuffer.length ≤ c := by
  obtain ⟨_, _, hraw, htime⟩ := pushAll_spec c hc rate ps
  refine ⟨?_, ?_, ?_, ?_⟩
  · rw [hraw, hlen]
    congr 1
    omega
  · rw [htime, hlen]
    congr 1
    omega
  · rw [pushAll_length c hc rate ps, hlen]
    omega
  · intro qs
    rw [pushAll_length c hc rate qs]
    omega

/-- Witness for C6: capacity 2, three pushes; the window keeps the last two. -/
theorem C6_fifo_window_witness :
    (1 ≤ 2 ∧ ([((1 : ℝ), (10 : ℤ)), (2, 20), (3, 30)] : List (ℝ × ℤ)).length = 2 + 1) ∧
      (SignalProcessor.pushAll (SignalProcessor.init 2 9)
          [((1 : ℝ), (10 : ℤ)), (2, 20), (3, 30)]).mRawBuffer =
        (([((1 : ℝ), (10 : ℤ)), (2, 20), (3, 30)] : List (ℝ × ℤ)).map Prod.fst).drop 1 :=
  ⟨⟨by norm_num, by norm_num⟩,
    (C6_fifo_window 2 (by norm_num) 9 1 _ (by norm_num)).1⟩

/-- C7: reset drives the sample count to 0, clears the previous estimate
(Unlocked), and the next computeHeartRate call returns 0, for any positive
sampling rate and any prior state. -/
theorem C7_reset (sp : SignalProcessor) (hrate : 0 < sp.mSamplingRate) :
    sp.reset.getSampleCount = 0 ∧ sp.reset.mPrevHR = 0 ∧
      sp.reset.computeHeartRate = (0, sp.reset) := by
  refine ⟨rfl, rfl, ?_⟩
  unfold SignalProcessor.computeHeartRate
  rw [if_pos ?cond]
  case cond =>
    show ((sp.reset.mRawBuffer.length : ℝ)) < sp.reset.mSamplingRate * 3
    simp only [SignalProcessor.reset, List.length_nil, Nat.cast_zero]
    linarith

/-- Witness for C7 from a Locked state with a nonempty buffer. -/
theorem C7_reset_witness :
    (0 < (SignalProcessor.mk 8 30 [5, 6] [1, 2] 77).mSamplingRate) ∧
      (SignalProcessor.mk 8 30 [5, 6] [1, 2] 77).reset.getSampleCount = 0 ∧
      (SignalProcessor.mk 8 30 [5, 6] [1, 2] 77).reset.mPrevHR = 0 ∧
      (SignalProcessor.mk 8 30 [5, 6] [1, 2] 77).reset.computeHeartRate =
        (0, (SignalProcessor.mk 8 30 [5, 6] [1, 2] 77).reset) :=
  ⟨by norm_num, C7_reset _ (by norm_num)⟩

/-- C10 counterexample: with samplingRate 1/4 (positive) a one-sample
buffer passes the insufficient-data check (1 ≥ 3/4), and the Hamming
denominator N − 1 is zero, contradicting the claim that every call past
the check has a nonzero denominator. -/
theorem C10_window_denominator_counterexample :
    0 < (SignalProcessor.mk 4 (1 / 4) [5] [0] 0).mSamplingRate ∧
      ¬ (((SignalProcessor.mk 4 (1 / 4) [5] [0] 0).mRawBuffer.length : ℝ) <
          (SignalProcessor.mk 4 (1 / 4) [5] [0] 0).mSamplingRate * 3) ∧
      ((normalizeBuffer (SignalProcessor.mk 4 (1 / 4) [5] [0] 0).mRawBuffer).length - 1 : ℕ) = 0 := by
  refine ⟨by norm_num, by norm_num, ?_⟩
  norm_num [normalizeBuffer]

/-- C10 (amended): provided samplingRate > 1/3, every computeHeartRate call
that passes the insufficient-data check has at least two live samples, so
the Hamming-window denominator N − 1 is nonzero.  (For samplingRate ≤ 1/3 a
one-sample buffer passes the check and the denominator is zero, see the
counterexample.) -/
theorem C10_window_denominator (sp : SignalProcessor) (hrate : 1 / 3 < sp.mSamplingRate)
    (hpass : ¬ ((sp.mRawBuffer.length : ℝ) < sp.mSamplingRate * 3)) :
    2 ≤ (normalizeBuffer sp.mRawBuffer).length ∧
      ((normalizeBuffer sp.mRawBuffer).length - 1 : ℕ) ≠ 0 := by
  have hlen : (normalizeBuffer sp.mRawBuffer).length = sp.mRawBuffer.length := by
    unfold normalizeBuffer
    split_ifs
    · rfl
    · simp
  push_neg at hpass
  have hgt1 : (1 : ℝ) < (sp.mRawBuffer.length : ℝ) := by nlinarith
  have h2 : 2 ≤ sp.mRawBuffer.length := by
    have : (1 : ℕ) < sp.mRawBuffer.length := by exact_mod_cast hgt1
    omega
  rw [hlen]
  omega

/-- Witness for the amended C10: samplingRate 1, three samples. -/
theorem C10_window_denominator_witness :
    ((1 : ℝ) / 3 < (SignalProcessor.mk 8 1 [1, 2, 3] [] 0).mSamplingRate ∧
        ¬ (((SignalProcessor.mk 8 1 [1, 2, 3] [] 0).mRawBuffer.length : ℝ) <
            (SignalProcessor.mk 8 1 [1, 2, 3] [] 0).mSamplingRate * 3)) ∧
      ((normalizeBuffer (SignalProcessor.mk 8 1 [1, 2, 3] [] 0).mRawBuffer).length - 1 : ℕ) ≠ 0 :=
  ⟨⟨by norm_num, by norm_num⟩,
    (C10_window_denominator _ (by norm_num) (by norm_num)).2⟩

/-! ## Claim C9: the previous estimate stays in the physiological band -/

theorem scanStep_peakOk {cap : ℕ} {rate minF maxF : ℝ} {spec : ℕ → ℂ}
    {acc : ScanAcc} (h : ScanPeakOk cap rate minF maxF acc) (i : ℕ) :
    ScanPeakOk cap rate minF maxF (scanStep cap rate spec minF maxF acc i) := by
  unfold ScanPeakOk at h ⊢
  simp only [scanStep]
  split_ifs with h1 h2 h3 <;>
    first
      | (exact Or.inr ⟨i, rfl, h2.1.1, h2.1.2⟩)
      | (exact Or.inr ⟨i, rfl, h3.1.1, h3.1.2⟩)
      | exact h

theorem foldl_scanStep_peakOk {cap : ℕ} {rate minF maxF : ℝ} {spec : ℕ → ℂ}
    (l : List ℕ) {acc : ScanAcc} (h : ScanPeakOk cap rate minF maxF acc) :
    ScanPeakOk cap rate minF maxF (l.foldl (scanStep cap rate spec minF maxF) acc) := by
  induction l generalizing acc with
  | nil => exact h
  | cons a l ih => exact ih (scanStep_peakOk h a)

theorem hrScan_peakOk (sp : SignalProcessor) :
    ScanPeakOk sp.mBufferSize sp.mSamplingRate sp.minFreq sp.maxFreq sp.hrScan := by
  unfold SignalProcessor.hrScan
  exact foldl_scanStep_peakOk _ (Or.inl rfl)

theorem minFreq_ge (sp : SignalProcessor) : 0.75 ≤ sp.minFreq := by
  unfold SignalProcessor.minFreq
  split_ifs
  · exact le_max_left _ _
  · exact le_rfl

theorem maxFreq_le (sp : SignalProcessor) : sp.maxFreq ≤ 3.33 := by
  unfold SignalProcessor.maxFreq
  split_ifs
  · exact min_le_left _ _
  · exact le_rfl

theorem computeHeartRate_prevOk (sp : SignalProcessor) (h : PrevOk sp) :
    PrevOk (sp.computeHeartRate).2 ∧
      ((sp.computeHeartRate).1 = 0 ∨
        (45 ≤ (sp.computeHeartRate).1 ∧ (sp.computeHeartRate).1 ≤ 199.8)) := by
  unfold SignalProcessor.computeHeartRate
  by_cases hins : (sp.mRawBuffer.length : ℝ) < sp.mSamplingRate * 3
  · rw [if_pos hins]
    exact ⟨h, Or.inl rfl⟩
  · rw [if_neg hins]
    simp only
    by_cases hgate : 0 < sp.hrScan.countMag ∧
        sp.hrScan.maxMag < sp.hrScan.sumMag / (sp.hrScan.countMag : ℝ) * 2
    · rw [if_pos hgate]
      by_cases hprev : 0 < sp.mPrevHR
      · rw [if_pos hprev]
        rcases h with h0 | hband
        · exact absurd h0 (by linarith)
        · exact ⟨Or.inr hband, Or.inr hband⟩
      · rw [if_neg hprev]
        exact ⟨h, Or.inl rfl⟩
    · rw [if_neg hgate]
      by_cases hpeak : sp.hrScan.peakIndex ≠ -1
      · rw [if_pos hpeak]
        rcases hrScan_peakOk sp with hsent | ⟨i, hidx, hlo, hhi⟩
        · exact absurd hsent hpeak
        · have hlo' : (0.75 : ℝ) ≤ (i : ℝ) * sp.mSamplingRate / sp.mBufferSize :=
            le_trans (minFreq_ge sp) hlo
          have hhi' : (i : ℝ) * sp.mSamplingRate / sp.mBufferSize ≤ 3.33 :=
            le_trans hhi (maxFreq_le sp)
          have hbpm : 45 ≤ ((sp.hrScan.peakIndex : ℝ) * sp.mSamplingRate / sp.mBufferSize) * 60 ∧
              ((sp.hrScan.peakIndex : ℝ) * sp.mSamplingRate / sp.mBufferSize) * 60 ≤ 199.8 := by
            rw [hidx]
            push_cast
            constructor <;> nlinarith
          by_cases hprev : 0 < sp.mPrevHR
          · rw [if_pos hprev]
            have hpband : 45 ≤ sp.mPrevHR ∧ sp.mPrevHR ≤ 199.8 := by
              rcases h with h0 | hband
              · exact absurd h0 (by linarith)
              · exact hband
            constructor
            · right
              constructor <;> [nlinarith [hbpm.1, hpband.1]; nlinarith [hbpm.2, hpband.2]]
            · right
              constructor <;> [nlinarith [hbpm.1, hpband.1]; nlinarith [hbpm.2, hpband.2]]
          · rw [if_neg hprev]
            exact ⟨Or.inr hbpm, Or.inr hbpm⟩
      · rw [if_neg hpeak]
        exact ⟨h, h⟩

theorem runOps_prevOk (ops : List SPOp) :
    ∀ sp : SignalProcessor, PrevOk sp → PrevOk (sp.runOps ops) := by
  induction ops with
  | nil => intro sp h; exact h
  | cons op rest ih =>
      intro sp h
      have hstep : sp.runOps (op :: rest) =
          SignalProcessor.runOps
            (match op with
             | SPOp.add g t => sp.addSample g t
             | SPOp.compute => (sp.computeHeartRate).2
             | SPOp.reset => sp.reset) rest := rfl
      rw [hstep]
      apply ih
      cases op with
      | add g t =>
          obtain ⟨_, _, _, _, hprev⟩ := addSample_fields sp g t
          unfold PrevOk
          rw [hprev]
          exact h
      | compute => exact (computeHeartRate_prevOk sp h).1
      | reset => exact Or.inl rfl

/-- C9: after any sequence of addSample, computeHeartRate and reset calls
starting from a fresh instance, a nonzero previous estimate always lies in
the default band [45, 199.8] BPM, and any nonzero value computeHeartRate
returns lies in that band too. -/
theorem C9_prev_estimate_band (cap : ℕ) (rate : ℝ) (ops : List SPOp) :
    PrevOk (SignalProcessor.runOps (SignalProcessor.init cap rate) ops) ∧
      ((((SignalProcessor.runOps (SignalProcessor.init cap rate) ops).computeHeartRate).1 = 0) ∨
        (45 ≤ ((SignalProcessor.runOps (SignalProcessor.init cap rate) ops).computeHeartRate).1 ∧
          ((SignalProcessor.runOps (SignalProcessor.init cap rate) ops).computeHeartRate).1 ≤ 199.8)) := by
  have hbase : PrevOk (SignalProcessor.init cap rate) := Or.inl rfl
  have hrun := runOps_prevOk ops (SignalProcessor.init cap rate) hbase
  exact ⟨hrun, (computeHeartRate_prevOk _ hrun).2⟩

/-! ## Claims C3 and C4 -/

/-- C3: when the call reaches the spectrum scan and the full-band average
magnitude is positive with the tracked peak below twice that average, the
call returns the previous estimate if Locked (mPrevHR > 0) and 0 otherwise,
and the state is left exactly as it was. -/
theorem C3_validity_gate (sp : SignalProcessor)
    (hpass : ¬ ((sp.mRawBuffer.length : ℝ) < sp.mSamplingRate * 3))
    (havg : 0 < sp.hrScan.sumMag / (sp.hrScan.countMag : ℝ))
    (hweak : sp.hrScan.maxMag < sp.hrScan.sumMag / (sp.hrScan.countMag : ℝ) * 2) :
    sp.computeHeartRate = ((if 0 < sp.mPrevHR then sp.mPrevHR else 0), sp) := by
  have hcount : 0 < sp.hrScan.countMag := by
    by_contra hc
    push_neg at hc
    have h0 : sp.hrScan.countMag = 0 := by omega
    rw [h0] at havg
    norm_num at havg
  unfold SignalProcessor.computeHeartRate
  rw [if_neg hpass]
  simp only
  rw [if_pos ⟨hcount, hweak⟩]

/-- C4: when an estimate is accepted (scan reached, gate not triggered,
peak found), the raw BPM r is the peak frequency times 60; if Locked with
previous p the stored and returned value is 0.7·p + 0.3·r, so the change
is exactly 0.3·(r − p); if Unlocked the stored and returned value is r and
the estimator becomes Locked (positive stored estimate). -/
theorem C4_accept_smooth (sp : SignalProcessor)
    (hpass : ¬ ((sp.mRawBuffer.length : ℝ) < sp.mSamplingRate * 3))
    (hgate : ¬ (0 < sp.hrScan.countMag ∧
        sp.hrScan.maxMag < sp.hrScan.sumMag / (sp.hrScan.countMag : ℝ) * 2))
    (hpeak : sp.hrScan.peakIndex ≠ -1) :
    (0 < sp.mPrevHR →
        sp.computeHeartRate =
          (sp.mPrevHR * 0.7 +
              (sp.hrScan.peakIndex : ℝ) * sp.mSamplingRate / sp.mBufferSize * 60 * 0.3,
            { sp with mPrevHR := sp.mPrevHR * 0.7 +
              (sp.hrScan.peakIndex : ℝ) * sp.mSamplingRate / sp.mBufferSize * 60 * 0.3 }) ∧
        (sp.computeHeartRate).1 - sp.mPrevHR =
          0.3 * ((sp.hrScan.peakIndex : ℝ) * sp.mSamplingRate / sp.mBufferSize * 60 -
            sp.mPrevHR)) ∧
      (¬ 0 < sp.mPrevHR →
        sp.computeHeartRate =
          ((sp.hrScan.peakIndex : ℝ) * sp.mSamplingRate / sp.mBufferSize * 60,
            { sp with mPrevHR :=
              (sp.hrScan.peakIndex : ℝ) * sp.mSamplingRate / sp.mBufferSize * 60 }) ∧
        0 < (sp.computeHeartRate).2.mPrevHR) := by
  have hcompute : sp.computeHeartRate =
      (if 0 < sp.mPrevHR then
          sp.mPrevHR * 0.7 +
            (sp.hrScan.peakIndex : ℝ) * sp.mSamplingRate / sp.mBufferSize * 60 * 0.3
        else (sp.hrScan.peakIndex : ℝ) * sp.mSamplingRate / sp.mBufferSize * 60,
        { sp with mPrevHR :=
          if 0 < sp.mPrevHR then
            sp.mPrevHR * 0.7 +
              (sp.hrScan.peakIndex : ℝ) * sp.mSamplingRate / sp.mBufferSize * 60 * 0.3
          else (sp.hrScan.peakIndex : ℝ) * sp.mSamplingRate / sp.mBufferSize * 60 }) := by
    unfold SignalProcessor.computeHeartRate
    rw [if_neg hpass]
    simp only
    rw [if_neg hgate, if_pos hpeak]
  have hbpm_pos : 0 < (sp.hrScan.peakIndex : ℝ) * sp.mSamplingRate / sp.mBufferSize * 60 := by
    rcases hrScan_peakOk sp with hsent | ⟨i, hidx, hlo, hhi⟩
    · exact absurd hsent hpeak
    · have hlo' : (0.75 : ℝ) ≤ (i : ℝ) * sp.mSamplingRate / sp.mBufferSize :=
        le_trans (minFreq_ge sp) hlo
      rw [hidx]
      push_cast
      nlinarith
  constructor
  · intro hprev
    rw [hcompute, if_pos hprev]
    exact ⟨rfl, by ring⟩
  · intro hprev
    rw [hcompute, if_neg hprev]
    exact ⟨rfl, hbpm_pos⟩
/-! ## Concrete pipeline evaluation for the C3 and C4 witnesses -/

theorem cos_two_pi_div_three : Real.cos (2 * Real.pi / 3) = -(1 / 2) := by
  have h : 2 * Real.pi / 3 = Real.pi - Real.pi / 3 := by ring
  rw [h, Real.cos_pi_sub, Real.cos_pi_div_three]

theorem cos_four_pi_div_three : Real.cos (4 * Real.pi / 3) = -(1 / 2) := by
  have h : 4 * Real.pi / 3 = 2 * Real.pi - 2 * Real.pi / 3 := by ring
  rw [h, Real.cos_two_pi_sub, cos_two_pi_div_three]

theorem spC4_processed : spC4.processed =
    [154 / 25, 0, 0, 0, -(154 / 25), 0, 0, 0, 154 / 25, 0, 0, 0, -(154 / 25)] := by
  show applyWindow (normalizeBuffer [77, 0, 0, 0, -8, 0, 0, 0, 8, 0, 0, 0, -77]) = _
  rw [show normalizeBuffer [77, 0, 0, 0, -8, 0, 0, 0, 8, 0, 0, 0, -77] =
      ([77, 0, 0, 0, -8, 0, 0, 0, 8, 0, 0, 0, -77] : List ℝ) from by
    norm_num [normalizeBuffer]]
  unfold applyWindow
  simp only [List.mapIdx, List.mapIdx.go, Array.push, List.concat, Array.toList]
  norm_num
  have h1 : 2 * Real.pi * 4 / 12 = 2 * Real.pi / 3 := by ring
  have h2 : 2 * Real.pi * 8 / 12 = 4 * Real.pi / 3 := by ring
  rw [h1, h2, cos_two_pi_div_three, cos_four_pi_div_three]
  norm_num

theorem spC3_processed : spC3.processed =
    [154 / 25, 0, 0, 0, 154 / 25, 0, 0, 0, -(154 / 25), 0, 0, 0, -(154 / 25)] := by
  show applyWindow (normalizeBuffer [77, 0, 0, 0, 8, 0, 0, 0, -8, 0, 0, 0, -77]) = _
  rw [show normalizeBuffer [77, 0, 0, 0, 8, 0, 0, 0, -8, 0, 0, 0, -77] =
      ([77, 0, 0, 0, 8, 0, 0, 0, -8, 0, 0, 0, -77] : List ℝ) from by
    norm_num [normalizeBuffer]]
  unfold applyWindow
  simp only [List.mapIdx, List.mapIdx.go, Array.push, List.concat, Array.toList]
  norm_num
  have h1 : 2 * Real.pi * 4 / 12 = 2 * Real.pi / 3 := by ring
  have h2 : 2 * Real.pi * 8 / 12 = 4 * Real.pi / 3 := by ring
  rw [h1, h2, cos_two_pi_div_three, cos_four_pi_div_three]
  norm_num

theorem dft16_support4 (f : ℕ → ℂ) (a b c d : ℂ)
    (hv0 : f 0 = a) (hv4 : f 4 = b) (hv8 : f 8 = c) (hv12 : f 12 = d)
    (hz1 : f 1 = 0) (hz2 : f 2 = 0) (hz3 : f 3 = 0) (hz5 : f 5 = 0)
    (hz6 : f 6 = 0) (hz7 : f 7 = 0) (hz9 : f 9 = 0) (hz10 : f 10 = 0)
    (hz11 : f 11 = 0) (hz13 : f 13 = 0) (hz14 : f 14 = 0) (hz15 : f 15 = 0)
    (k : ℕ) (hk : k < 16) :
    kiss_fft 16 false f k =
      a + b * (-Complex.I) ^ k + c * (-1 : ℂ) ^ k + d * Complex.I ^ k := by
  have hq : kf_omega 16 false ^ 4 = -Complex.I := by
    have h := kf_omega_pow_quarter (show 4 ∣ 16 by norm_num) (show 0 < 16 by norm_num)
    norm_num at h
    exact h
  have hsq : ((-Complex.I) : ℂ) ^ 2 = -1 := by
    norm_num [pow_succ, Complex.I_mul_I]
  have hcu : ((-Complex.I) : ℂ) ^ 3 = Complex.I := by
    norm_num [pow_succ, Complex.I_mul_I]
  have h4k : kf_omega 16 false ^ (4 * k) = (-Complex.I) ^ k := by
    rw [pow_mul, hq]
  have h8k : kf_omega 16 false ^ (8 * k) = ((-1 : ℂ)) ^ k := by
    rw [show 8 * k = 4 * (2 * k) by ring, pow_mul, hq, pow_mul, hsq]
  have h12k : kf_omega 16 false ^ (12 * k) = Complex.I ^ k := by
    rw [show 12 * k = 4 * (3 * k) by ring, pow_mul, hq, pow_mul, hcu]
  rw [kiss_fft_forward_dft (by norm_num) f hk]
  simp only [Finset.sum_range_succ, Finset.sum_range_zero]
  rw [hv0, hv4, hv8, hv12, hz1, hz2, hz3, hz5, hz6, hz7, hz9, hz10, hz11,
    hz13, hz14, hz15]
  simp only [mul_zero, add_zero, zero_add]
  rw [h4k, h8k, h12k]
  simp only [zero_mul, pow_zero, one_mul]
  ring

theorem spC4_dft (k : ℕ) (hk : k < 16) :
    spC4.mFftOut k =
      154 / 25 + -(154 / 25) * (-Complex.I) ^ k + 154 / 25 * (-1 : ℂ) ^ k +
        -(154 / 25) * Complex.I ^ k := by
  show kiss_fft 16 false spC4.mFftIn k = _
  refine dft16_support4 spC4.mFftIn (154 / 25) (-(154 / 25)) (154 / 25) (-(154 / 25))
    ?_ ?_ ?_ ?_ ?_ ?_ ?_ ?_ ?_ ?_ ?_ ?_ ?_ ?_ ?_ ?_ k hk <;>
    simp [SignalProcessor.mFftIn, spC4_processed, List.getD]

theorem spC3_dft (k : ℕ) (hk : k < 16) :
    spC3.mFftOut k =
      154 / 25 + 154 / 25 * (-Complex.I) ^ k + -(154 / 25) * (-1 : ℂ) ^ k +
        -(154 / 25) * Complex.I ^ k := by
  show kiss_fft 16 false spC3.mFftIn k = _
  refine dft16_support4 spC3.mFftIn (154 / 25) (154 / 25) (-(154 / 25)) (-(154 / 25))
    ?_ ?_ ?_ ?_ ?_ ?_ ?_ ?_ ?_ ?_ ?_ ?_ ?_ ?_ ?_ ?_ k hk <;>
    simp [SignalProcessor.mFftIn, spC3_processed, List.getD]

theorem spC4_out3 : spC4.mFftOut 3 = 0 := by
  rw [spC4_dft 3 (by norm_num)]
  norm_num [pow_succ, Complex.I_mul_I]

theorem spC4_out4 : spC4.mFftOut 4 = 0 := by
  rw [spC4_dft 4 (by norm_num)]
  norm_num [pow_succ, Complex.I_mul_I]

theorem spC4_out5 : spC4.mFftOut 5 = 0 := by
  rw [spC4_dft 5 (by norm_num)]
  norm_num [pow_succ, Complex.I_mul_I]

theorem spC4_out6 : spC4.mFftOut 6 = ((616 / 25 : ℝ) : ℂ) := by
  rw [spC4_dft 6 (by norm_num)]
  push_cast
  norm_num [pow_succ, Complex.I_mul_I]

theorem spC4_out7 : spC4.mFftOut 7 = 0 := by
  rw [spC4_dft 7 (by norm_num)]
  norm_num [pow_succ, Complex.I_mul_I]

theorem spC3_out3 : spC3.mFftOut 3 =
    ((308 / 25 : ℝ) : ℂ) + ((308 / 25 : ℝ) : ℂ) * Complex.I := by
  rw [spC3_dft 3 (by norm_num)]
  push_cast
  norm_num [pow_succ, Complex.I_mul_I]
  try ring

theorem spC3_out4 : spC3.mFftOut 4 = 0 := by
  rw [spC3_dft 4 (by norm_num)]
  norm_num [pow_succ, Complex.I_mul_I]

theorem spC3_out5 : spC3.mFftOut 5 =
    ((308 / 25 : ℝ) : ℂ) + ((-(308 / 25) : ℝ) : ℂ) * Complex.I := by
  rw [spC3_dft 5 (by norm_num)]
  push_cast
  norm_num [pow_succ, Complex.I_mul_I]
  try ring

theorem spC3_out6 : spC3.mFftOut 6 = 0 := by
  rw [spC3_dft 6 (by norm_num)]
  norm_num [pow_succ, Complex.I_mul_I]

theorem spC3_out7 : spC3.mFftOut 7 =
    ((308 / 25 : ℝ) : ℂ) + ((308 / 25 : ℝ) : ℂ) * Complex.I := by
  rw [spC3_dft 7 (by norm_num)]
  push_cast
  norm_num [pow_succ, Complex.I_mul_I]
  try ring

theorem mag_of_zero {z : ℂ} (hz : z = 0) :
    Real.sqrt (z.re * z.re + z.im * z.im) = 0 := by
  rw [hz]
  simp

theorem spC4_mag6 :
    Real.sqrt ((spC4.mFftOut 6).re * (spC4.mFftOut 6).re +
      (spC4.mFftOut 6).im * (spC4.mFftOut 6).im) = 616 / 25 := by
  rw [spC4_out6]
  simp only [Complex.ofReal_re, Complex.ofReal_im, mul_zero, add_zero]
  rw [show (616 / 25 : ℝ) * (616 / 25) = (616 / 25) ^ 2 by ring]
  exact Real.sqrt_sq (by norm_num)

theorem magC3_pos : 0 < magC3 := by
  unfold magC3
  exact Real.sqrt_pos.mpr (by norm_num)

theorem magC3_not_lt_zero : ¬ magC3 < 0 := not_lt.mpr magC3_pos.le

theorem mag_of_pair {z : ℂ} {x y : ℝ} (hz : z = (x : ℂ) + (y : ℂ) * Complex.I)
    (hx : x * x + y * y = 308 / 25 * (308 / 25) + 308 / 25 * (308 / 25)) :
    Real.sqrt (z.re * z.re + z.im * z.im) = magC3 := by
  rw [hz]
  simp only [Complex.add_re, Complex.add_im, Complex.ofReal_re, Complex.ofReal_im,
    Complex.mul_re, Complex.mul_im, Complex.I_re, Complex.I_im]
  unfold magC3
  congr 1
  rw [← hx]
  ring

theorem spC3_mag3 :
    Real.sqrt ((spC3.mFftOut 3).re * (spC3.mFftOut 3).re +
      (spC3.mFftOut 3).im * (spC3.mFftOut 3).im) = magC3 :=
  mag_of_pair spC3_out3 (by norm_num)

theorem spC3_mag5 :
    Real.sqrt ((spC3.mFftOut 5).re * (spC3.mFftOut 5).re +
      (spC3.mFftOut 5).im * (spC3.mFftOut 5).im) = magC3 :=
  mag_of_pair spC3_out5 (by norm_num)

theorem spC3_mag7 :
    Real.sqrt ((spC3.mFftOut 7).re * (spC3.mFftOut 7).re +
      (spC3.mFftOut 7).im * (spC3.mFftOut 7).im) = magC3 :=
  mag_of_pair spC3_out7 (by norm_num)

theorem spC4_minFreq : spC4.minFreq = 0.75 := by
  norm_num [SignalProcessor.minFreq, spC4]

theorem spC4_maxFreq : spC4.maxFreq = 3.33 := by
  norm_num [SignalProcessor.maxFreq, spC4]

theorem spC3_minFreq : spC3.minFreq = 0.75 := by
  norm_num [SignalProcessor.minFreq, spC3]

theorem spC3_maxFreq : spC3.maxFreq = 3.33 := by
  norm_num [SignalProcessor.maxFreq, spC3]

theorem spC4_hrScan : spC4.hrScan = ⟨616 / 25, 6, 616 / 25, 5⟩ := by
  have hfold : spC4.hrScan =
      ([1, 2, 3, 4, 5, 6, 7] : List ℕ).foldl
        (scanStep 16 4 spC4.mFftOut spC4.minFreq spC4.maxFreq) ⟨0, -1, 0, 0⟩ := rfl
  rw [hfold, spC4_minFreq, spC4_maxFreq]
  have s1 : scanStep 16 4 spC4.mFftOut 0.75 3.33 ⟨0, -1, 0, 0⟩ 1 = ⟨0, -1, 0, 0⟩ := by
    norm_num [scanStep]
  have s2 : scanStep 16 4 spC4.mFftOut 0.75 3.33 ⟨0, -1, 0, 0⟩ 2 = ⟨0, -1, 0, 0⟩ := by
    norm_num [scanStep]
  have s3 : scanStep 16 4 spC4.mFftOut 0.75 3.33 ⟨0, -1, 0, 0⟩ 3 = ⟨0, -1, 0, 1⟩ := by
    simp only [scanStep]
    rw [mag_of_zero spC4_out3]
    norm_num
  have s4 : scanStep 16 4 spC4.mFftOut 0.75 3.33 ⟨0, -1, 0, 1⟩ 4 = ⟨0, -1, 0, 2⟩ := by
    simp only [scanStep]
    rw [mag_of_zero spC4_out4]
    norm_num
  have s5 : scanStep 16 4 spC4.mFftOut 0.75 3.33 ⟨0, -1, 0, 2⟩ 5 = ⟨0, -1, 0, 3⟩ := by
    simp only [scanStep]
    rw [mag_of_zero spC4_out5]
    norm_num
  have s6 : scanStep 16 4 spC4.mFftOut 0.75 3.33 ⟨0, -1, 0, 3⟩ 6 =
      ⟨616 / 25, 6, 616 / 25, 4⟩ := by
    simp only [scanStep]
    rw [spC4_mag6]
    norm_num
  have s7 : scanStep 16 4 spC4.mFftOut 0.75 3.33 ⟨616 / 25, 6, 616 / 25, 4⟩ 7 =
      ⟨616 / 25, 6, 616 / 25, 5⟩ := by
    simp only [scanStep]
    rw [mag_of_zero spC4_out7]
    norm_num
  simp only [List.foldl_cons, List.foldl_nil]
  rw [s1, s2, s3, s4, s5, s6, s7]

theorem spC3_hrScan : spC3.hrScan = ⟨magC3, 3, magC3 + magC3 + magC3, 5⟩ := by
  have hfold : spC3.hrScan =
      ([1, 2, 3, 4, 5, 6, 7] : List ℕ).foldl
        (scanStep 16 4 spC3.mFftOut spC3.minFreq spC3.maxFreq) ⟨0, -1, 0, 0⟩ := rfl
  rw [hfold, spC3_minFreq, spC3_maxFreq]
  have s1 : scanStep 16 4 spC3.mFftOut 0.75 3.33 ⟨0, -1, 0, 0⟩ 1 = ⟨0, -1, 0, 0⟩ := by
    norm_num [scanStep]
  have s2 : scanStep 16 4 spC3.mFftOut 0.75 3.33 ⟨0, -1, 0, 0⟩ 2 = ⟨0, -1, 0, 0⟩ := by
    norm_num [scanStep]
  have s3 : scanStep 16 4 spC3.mFftOut 0.75 3.33 ⟨0, -1, 0, 0⟩ 3 = ⟨magC3, 3, magC3, 1⟩ := by
    simp only [scanStep]
    rw [spC3_mag3]
    norm_num [magC3_pos]
  have s4 : scanStep 16 4 spC3.mFftOut 0.75 3.33 ⟨magC3, 3, magC3, 1⟩ 4 =
      ⟨magC3, 3, magC3, 2⟩ := by
    simp only [scanStep]
    rw [mag_of_zero spC3_out4]
    norm_num [magC3_not_lt_zero]
  have s5 : scanStep 16 4 spC3.mFftOut 0.75 3.33 ⟨magC3, 3, magC3, 2⟩ 5 =
      ⟨magC3, 3, magC3 + magC3, 3⟩ := by
    simp only [scanStep]
    rw [spC3_mag5]
    norm_num
  have s6 : scanStep 16 4 spC3.mFftOut 0.75 3.33 ⟨magC3, 3, magC3 + magC3, 3⟩ 6 =
      ⟨magC3, 3, magC3 + magC3, 4⟩ := by
    simp only [scanStep]
    rw [mag_of_zero spC3_out6]
    norm_num [magC3_not_lt_zero]
  have s7 : scanStep 16 4 spC3.mFftOut 0.75 3.33 ⟨magC3, 3, magC3 + magC3, 4⟩ 7 =
      ⟨magC3, 3, magC3 + magC3 + magC3, 5⟩ := by
    simp only [scanStep]
    rw [spC3_mag7]
    norm_num
  simp only [List.foldl_cons, List.foldl_nil]
  rw [s1, s2, s3, s4, s5, s6, s7]

/-- Witness for C3: the instance `spC3` reaches the scan with a positive
average magnitude and a peak below twice that average, so the call returns
the previous estimate / 0 and leaves the state unchanged. -/
theorem C3_validity_gate_witness :
    (¬ ((spC3.mRawBuffer.length : ℝ) < spC3.mSamplingRate * 3) ∧
      0 < spC3.hrScan.sumMag / (spC3.hrScan.countMag : ℝ) ∧
      spC3.hrScan.maxMag < spC3.hrScan.sumMag / (spC3.hrScan.countMag : ℝ) * 2) ∧
    spC3.computeHeartRate = ((if 0 < spC3.mPrevHR then spC3.mPrevHR else 0), spC3) := by
  have hpass : ¬ ((spC3.mRawBuffer.length : ℝ) < spC3.mSamplingRate * 3) := by
    norm_num [spC3]
  have hM := magC3_pos
  have havg : 0 < spC3.hrScan.sumMag / (spC3.hrScan.countMag : ℝ) := by
    rw [spC3_hrScan]
    show 0 < (magC3 + magC3 + magC3) / ((5 : ℕ) : ℝ)
    apply div_pos (by linarith) (by norm_num)
  have hweak : spC3.hrScan.maxMag < spC3.hrScan.sumMag / (spC3.hrScan.countMag : ℝ) * 2 := by
    rw [spC3_hrScan]
    show magC3 < (magC3 + magC3 + magC3) / ((5 : ℕ) : ℝ) * 2
    push_cast
    linarith
  exact ⟨⟨hpass, havg, hweak⟩, C3_validity_gate spC3 hpass havg hweak⟩

/-- Witness for C4: the instance `spC4` reaches the scan, passes the gate
(its single in-band peak at bin 6 carries all the energy), starts Unlocked,
and so stores and returns the raw BPM of bin 6 and becomes Locked. -/
theorem C4_accept_smooth_witness :
    (¬ ((spC4.mRawBuffer.length : ℝ) < spC4.mSamplingRate * 3) ∧
      ¬ (0 < spC4.hrScan.countMag ∧
          spC4.hrScan.maxMag < spC4.hrScan.sumMag / (spC4.hrScan.countMag : ℝ) * 2) ∧
      spC4.hrScan.peakIndex ≠ -1) ∧
    (spC4.computeHeartRate =
        ((spC4.hrScan.peakIndex : ℝ) * spC4.mSamplingRate / spC4.mBufferSize * 60,
          { spC4 with mPrevHR :=
            (spC4.hrScan.peakIndex : ℝ) * spC4.mSamplingRate / spC4.mBufferSize * 60 }) ∧
      0 < (spC4.computeHeartRate).2.mPrevHR) := by
  have hpass : ¬ ((spC4.mRawBuffer.length : ℝ) < spC4.mSamplingRate * 3) := by
    norm_num [spC4]
  have hgate : ¬ (0 < spC4.hrScan.countMag ∧
      spC4.hrScan.maxMag < spC4.hrScan.sumMag / (spC4.hrScan.countMag : ℝ) * 2) := by
    rw [spC4_hrScan]
    norm_num
  have hpeak : spC4.hrScan.peakIndex ≠ -1 := by
    rw [spC4_hrScan]
    norm_num
  exact ⟨⟨hpass, hgate, hpeak⟩,
    (C4_accept_smooth spC4 hpass hgate hpeak).2 (by norm_num [spC4])⟩
